import Mathlib

/-!
Verification of TP::CPool — a fixed-size thread pool (src/thread_pool.h)

The pool is embedded as an interleaving state machine.  Every thread (the
worker threads of `m_Threads` and any number of calling threads) carries a
program counter that names the source statement it executes next; one step of
the machine lets one thread execute one statement.  The mutex `m_QueueMutex`
is an explicit lock holder, acquired and released by the `std::unique_lock`
scopes of the source.  `std::condition_variable::wait` may return spuriously,
so a blocked waiter may wake whenever it can re-acquire the mutex; the
notifications themselves are recorded in a log.  Every statement proved for all
reachable states of this machine holds whatever wakes a waiter.  A second
machine on top of it (`cvStep`) lets a waiter leave `wait` only after a
notification has released it; each of its steps is a step of the first machine,
and it is used to exhibit a run in which a notification reaches the wrong
waiter.

A task is the type-erased callable stored in `m_Tasks`: the identity of the
`std::packaged_task` shared state created at line 36 and the outcome of
invoking the bound callable (a value, or the exception it throws).  Task
bodies do not call back into the pool in this model; such calls are covered by
calling threads.
-/

namespace TP

/-- The modulus of `size_t` arithmetic. -/
def SIZE_MOD : Nat := 2 ^ 64

/-- The exceptions thrown by the pool itself. -/
inductive Exception
  | invalid_argument (what : String)
  | runtime_error (what : String)
  deriving DecidableEq, Repr

/-- What invoking a bound callable produces: a return value or a thrown exception. -/
inductive Outcome
  | value (v : Int)
  | error (e : String)
  deriving DecidableEq, Repr

/-- The callable stored in the queue: `[ Task ] ( ) { ( *Task )( ); }` (line 48).
`id` names the shared state of the `std::packaged_task` made at line 36. -/
structure Task where
  id : Nat
  body : Outcome
  deriving DecidableEq, Repr

/-- Thread identities, used for the holder of `m_QueueMutex`. -/
inductive Tid
  | worker (i : Nat)
  | caller (c : Nat)
  deriving DecidableEq, Repr

/-- Program counter of a worker thread inside `WorkLoop` (lines 82-115). -/
inductive WorkerPc
  | acquireTop                -- line 89: construct the unique_lock
  | waitPred                  -- lines 91-93: evaluate the wait predicate, mutex held
  | blocked                   -- line 91: inside wait, mutex released
  | checkStop                 -- line 95
  | takeTask                  -- lines 98-99
  | incBusy (t : Task)        -- line 101
  | releaseTop (t : Task)     -- line 102
  | runTask (t : Task)        -- line 104
  | acquireBottom             -- line 107
  | decBusy                   -- line 109
  | checkIdle                 -- line 111
  | notifyIdle                -- line 112
  | releaseBottom             -- line 113
  | terminated                -- line 96: WorkLoop has returned
  deriving DecidableEq, Repr

/-- One element of `m_Threads`: the thread's program counter, the `joinable()`
state of its `std::thread` object, and the number of `join()` calls made on it. -/
structure Thread where
  pc : WorkerPc
  joinable : Bool
  joins : Nat
  deriving DecidableEq, Repr

/-- How a call into the pool ended. -/
inductive Ret
  | unit                      -- `Wait` / `Stop` returned
  | future (id : Nat)         -- `Enqueue` returned the future of shared state `id`
  | threw (e : Exception)
  deriving DecidableEq, Repr

/-- Program counter of a calling thread. -/
inductive CallerPc
  | idle (last : Option Ret)  -- not inside the pool; result of the last call
  | enqAcquire (t : Task)     -- line 43
  | enqCheck (t : Task)       -- lines 45-46
  | enqEmplace (t : Task)     -- line 48
  | enqRelease (t : Task)     -- line 49
  | enqNotify (t : Task)      -- line 51
  | waitAcquire               -- line 58
  | waitPred                  -- lines 60-62: evaluate the wait predicate, mutex held
  | waitBlocked               -- line 60: inside wait, mutex released
  | waitReturn                -- line 63
  | stopAcquire               -- line 68
  | stopSet                   -- line 69
  | stopRelease               -- line 70
  | stopNotify                -- line 72
  | stopJoinable (i : Nat)    -- lines 74-76
  | stopJoin (i : Nat)        -- line 77: inside join
  | faulted                   -- join() on a thread another caller is joining
  deriving DecidableEq, Repr

/-- A recorded `notify_one` / `notify_all`: who notified and who held the mutex then. -/
structure Notification where
  sender : Tid
  all : Bool
  holder : Option Tid
  deriving DecidableEq, Repr

/-- The pool object (lines 117-122) together with the calling threads, the
shared states of the packaged tasks, and history variables. -/
structure Pool where
  m_Threads : List Thread
  m_Tasks : List Task
  m_QueueMutex : Option Tid
  m_iBusyThreads : Nat
  m_bStop : Bool
  callers : List CallerPc
  futures : List (Option Outcome)
  accepted : List Task
  dequeued : List (Nat × Task)
  notified : List Notification
  deriving DecidableEq, Repr

/-- The loop of lines 22-23: `emplace_back` one running thread per iteration. -/
def spawnThreads : Nat → List Thread → List Thread
  | 0, ths => ths
  | n + 1, ths => spawnThreads n (ths ++ [{ pc := .acquireTop, joinable := true, joins := 0 }])

/-- The constructor `CPool( size_t iNumThreads )` (lines 17-24). -/
def CPool (iNumThreads : Nat) : Except Exception Pool :=
  if iNumThreads = 0 then
    .error (.invalid_argument "Number of threads cannot be zero")
  else
    .ok { m_Threads := spawnThreads iNumThreads []
          m_Tasks := []
          m_QueueMutex := none
          m_iBusyThreads := 0
          m_bStop := false
          callers := []
          futures := []
          accepted := []
          dequeued := []
          notified := [] }

/-- Move worker `i` (whose thread object is `th`) to program counter `pc`. -/
def Pool.wgoto (s : Pool) (i : Nat) (th : Thread) (pc : WorkerPc) : Pool :=
  { s with m_Threads := s.m_Threads.set i { th with pc := pc } }

/-- Move caller `c` to program counter `pc`. -/
def Pool.cgoto (s : Pool) (c : Nat) (pc : CallerPc) : Pool :=
  { s with callers := s.callers.set c pc }

/-- Record a `notify_one` (`all = false`) or `notify_all` on `m_Condition`. -/
def Pool.notify (s : Pool) (sender : Tid) (all : Bool) : Pool :=
  { s with notified := s.notified ++ [{ sender := sender, all := all, holder := s.m_QueueMutex }] }

/-- One statement of `WorkLoop` executed by worker `i`.  Constructing a
`unique_lock` needs the mutex free; the end of a lock scope (and `return` or an
exception leaving it) releases the mutex.  A worker blocked in `wait` may wake
at any time (notified or spuriously) once it can re-acquire the mutex, and then
evaluates the predicate again.  `front()` on an empty queue has no defined
behaviour and is no step.  `++` and `--` on the `size_t` counter are mod 2^64.
Invoking the stored callable runs the `std::packaged_task`, which puts the
body's value or its exception into the shared state and never throws itself. -/
def workerStep (i : Nat) (s : Pool) : Option Pool :=
  match s.m_Threads[i]? with
  | none => none
  | some th =>
    match th.pc with
    | .acquireTop =>
        if s.m_QueueMutex = none then
          some ({ s with m_QueueMutex := some (.worker i) }.wgoto i th .waitPred)
        else none
    | .waitPred =>
        if s.m_Tasks ≠ [] ∨ s.m_bStop = true then
          some (s.wgoto i th .checkStop)
        else
          some ({ s with m_QueueMutex := none }.wgoto i th .blocked)
    | .blocked =>
        if s.m_QueueMutex = none then
          some ({ s with m_QueueMutex := some (.worker i) }.wgoto i th .waitPred)
        else none
    | .checkStop =>
        if s.m_bStop = true ∧ s.m_Tasks = [] then
          some ({ s with m_QueueMutex := none }.wgoto i th .terminated)
        else
          some (s.wgoto i th .takeTask)
    | .takeTask =>
        match s.m_Tasks with
        | [] => none
        | t :: rest =>
            some ({ s with m_Tasks := rest, dequeued := s.dequeued ++ [(i, t)] }.wgoto i th (.incBusy t))
    | .incBusy t =>
        some ({ s with m_iBusyThreads := (s.m_iBusyThreads + 1) % SIZE_MOD }.wgoto i th (.releaseTop t))
    | .releaseTop t =>
        some ({ s with m_QueueMutex := none }.wgoto i th (.runTask t))
    | .runTask t =>
        some ({ s with futures := s.futures.set t.id (some t.body) }.wgoto i th .acquireBottom)
    | .acquireBottom =>
        if s.m_QueueMutex = none then
          some ({ s with m_QueueMutex := some (.worker i) }.wgoto i th .decBusy)
        else none
    | .decBusy =>
        some ({ s with m_iBusyThreads := (s.m_iBusyThreads + SIZE_MOD - 1) % SIZE_MOD }.wgoto i th .checkIdle)
    | .checkIdle =>
        if s.m_iBusyThreads = 0 ∧ s.m_Tasks = [] then
          some (s.wgoto i th .notifyIdle)
        else
          some (s.wgoto i th .releaseBottom)
    | .notifyIdle =>
        some ((s.notify (.worker i) true).wgoto i th .releaseBottom)
    | .releaseBottom =>
        some ({ s with m_QueueMutex := none }.wgoto i th .acquireTop)
    | .terminated => none

/-- One statement of `Enqueue`, `Wait` or `Stop` executed by caller `c` (the
destructor `~CPool`, lines 26-29, is a call of `Stop`).  The `throw` of line 46
leaves the lock scope, which releases the mutex.  In the join loop a thread is
joinable until a `join()` on it has returned; `join()` returns once the thread
has terminated.  Calling `join()` on a thread that another caller is already
joining is outside the contract of `std::thread`, and the caller is then
`faulted`. -/
def callerStep (c : Nat) (s : Pool) : Option Pool :=
  match s.callers[c]? with
  | none => none
  | some pc =>
    match pc with
    | .idle _ => none
    | .enqAcquire t =>
        if s.m_QueueMutex = none then
          some ({ s with m_QueueMutex := some (.caller c) }.cgoto c (.enqCheck t))
        else none
    | .enqCheck t =>
        if s.m_bStop = true then
          some ({ s with m_QueueMutex := none }.cgoto c
            (.idle (some (.threw (.runtime_error "Thread pool is stopped")))))
        else
          some (s.cgoto c (.enqEmplace t))
    | .enqEmplace t =>
        some ({ s with m_Tasks := s.m_Tasks ++ [t], accepted := s.accepted ++ [t] }.cgoto c (.enqRelease t))
    | .enqRelease t =>
        some ({ s with m_QueueMutex := none }.cgoto c (.enqNotify t))
    | .enqNotify t =>
        some ((s.notify (.caller c) false).cgoto c (.idle (some (.future t.id))))
    | .waitAcquire =>
        if s.m_QueueMutex = none then
          some ({ s with m_QueueMutex := some (.caller c) }.cgoto c .waitPred)
        else none
    | .waitPred =>
        if s.m_Tasks = [] ∧ s.m_iBusyThreads = 0 then
          some (s.cgoto c .waitReturn)
        else
          some ({ s with m_QueueMutex := none }.cgoto c .waitBlocked)
    | .waitBlocked =>
        if s.m_QueueMutex = none then
          some ({ s with m_QueueMutex := some (.caller c) }.cgoto c .waitPred)
        else none
    | .waitReturn =>
        some ({ s with m_QueueMutex := none }.cgoto c (.idle (some .unit)))
    | .stopAcquire =>
        if s.m_QueueMutex = none then
          some ({ s with m_QueueMutex := some (.caller c) }.cgoto c .stopSet)
        else none
    | .stopSet =>
        some ({ s with m_bStop := true }.cgoto c .stopRelease)
    | .stopRelease =>
        some ({ s with m_QueueMutex := none }.cgoto c .stopNotify)
    | .stopNotify =>
        some ((s.notify (.caller c) true).cgoto c (.stopJoinable 0))
    | .stopJoinable i =>
        match s.m_Threads[i]? with
        | none => some (s.cgoto c (.idle (some .unit)))
        | some th =>
            if th.joinable = true then
              if th.joins = 0 then
                some ({ s with m_Threads := s.m_Threads.set i { th with joins := th.joins + 1 } }.cgoto c
                  (.stopJoin i))
              else
                some ({ s with m_Threads := s.m_Threads.set i { th with joins := th.joins + 1 } }.cgoto c
                  .faulted)
            else
              some (s.cgoto c (.stopJoinable (i + 1)))
    | .stopJoin i =>
        match s.m_Threads[i]? with
        | none => none
        | some th =>
            if th.pc = .terminated then
              some ({ s with m_Threads := s.m_Threads.set i { th with joinable := false } }.cgoto c
                (.stopJoinable (i + 1)))
            else none
    | .faulted => none

/-- The public member functions a calling thread may enter. -/
inductive Call
  | Enqueue (body : Outcome)
  | Wait
  | Stop
  deriving DecidableEq, Repr

/-- Caller `c` enters a member function.  For `Enqueue` this performs lines
36-40: a fresh shared state is created and bound into the task. -/
def callStep (c : Nat) (op : Call) (s : Pool) : Option Pool :=
  match s.callers[c]? with
  | some (.idle _) =>
      match op with
      | .Enqueue body =>
          some ({ s with futures := s.futures ++ [none] }.cgoto c
            (.enqAcquire { id := s.futures.length, body := body }))
      | .Wait => some (s.cgoto c .waitAcquire)
      | .Stop => some (s.cgoto c .stopAcquire)
  | _ => none

/-- The scheduler's choices. -/
inductive Action
  | worker (i : Nat)
  | caller (c : Nat)
  | call (c : Nat) (op : Call)
  deriving DecidableEq, Repr

/-- One step of the whole system. -/
def step (a : Action) (s : Pool) : Option Pool :=
  match a with
  | .worker i => workerStep i s
  | .caller c => callerStep c s
  | .call c op => callStep c op s

/-- Run a schedule. -/
def run : List Action → Pool → Option Pool
  | [], s => some s
  | a :: as, s => (step a s).bind (run as)

/-- A freshly constructed pool of `n` workers observed by `k` calling threads. -/
def boot (n k : Nat) : Option Pool :=
  match CPool n with
  | .ok p => some { p with callers := List.replicate k (.idle none) }
  | .error _ => none

/-- States reachable from `s0`. -/
inductive Reach (s0 : Pool) : Pool → Prop
  | init : Reach s0 s0
  | next {s s' : Pool} (a : Action) : Reach s0 s → step a s = some s' → Reach s0 s'

/-- States reachable from a pool constructed with `n` workers (`n` a `size_t`). -/
def Reachable (n k : Nat) (s : Pool) : Prop :=
  n < SIZE_MOD ∧ ∃ s0, boot n k = some s0 ∧ Reach s0 s

/-! ## Predicates on program counters and the invariants -/

/-- Worker program counters inside a `std::unique_lock` scope. -/
@[simp] def WorkerPc.holds : WorkerPc → Bool
  | .waitPred | .checkStop | .takeTask | .incBusy _ | .releaseTop _ => true
  | .decBusy | .checkIdle | .notifyIdle | .releaseBottom => true
  | _ => false

/-- Caller program counters inside a `std::unique_lock` scope. -/
@[simp] def CallerPc.holds : CallerPc → Bool
  | .enqCheck _ | .enqEmplace _ | .enqRelease _ => true
  | .waitPred | .waitReturn | .stopSet | .stopRelease => true
  | _ => false

/-- Mutual exclusion: a thread is inside a lock scope exactly when it is the holder. -/
structure MutexInv (s : Pool) : Prop where
  w : ∀ i th, s.m_Threads[i]? = some th →
        (th.pc.holds = true ↔ s.m_QueueMutex = some (.worker i))
  c : ∀ c pc, s.callers[c]? = some pc →
        (pc.holds = true ↔ s.m_QueueMutex = some (.caller c))

/-- What a thread inside a lock scope has learnt from the test it just made. -/
structure LocalInv (s : Pool) : Prop where
  checkStop : ∀ (i : Nat) (th : Thread), s.m_Threads[i]? = some th → th.pc = .checkStop →
      s.m_Tasks ≠ [] ∨ s.m_bStop = true
  takeTask : ∀ (i : Nat) (th : Thread), s.m_Threads[i]? = some th → th.pc = .takeTask → s.m_Tasks ≠ []
  notifyIdle : ∀ (i : Nat) (th : Thread), s.m_Threads[i]? = some th → th.pc = .notifyIdle →
      s.m_iBusyThreads = 0 ∧ s.m_Tasks = []
  enqEmplace : ∀ (c : Nat) (t : Task), s.callers[c]? = some (.enqEmplace t) → s.m_bStop = false
  waitReturn : ∀ (c : Nat), s.callers[c]? = some .waitReturn →
      s.m_Tasks = [] ∧ s.m_iBusyThreads = 0

/-- The Executing part of `WorkLoop`: after `++m_iBusyThreads` (line 101) and up
to `--m_iBusyThreads` (line 109). -/
@[simp] def WorkerPc.executing : WorkerPc → Bool
  | .releaseTop _ | .runTask _ | .acquireBottom | .decBusy => true
  | _ => false

/-- Number of workers in the Executing part of the loop. -/
def Pool.executingCount (s : Pool) : Nat :=
  s.m_Threads.countP (fun th => th.pc.executing)

/-- The busy counter is the number of executing workers. -/
structure BusyInv (n : Nat) (s : Pool) : Prop where
  len : s.m_Threads.length = n
  busy : s.m_iBusyThreads = s.executingCount

/-- FIFO bookkeeping: what was dequeued, followed by the queue, is what was accepted. -/
def FifoInv (s : Pool) : Prop :=
  s.dequeued.map Prod.snd ++ s.m_Tasks = s.accepted

/-- A worker that has returned from `WorkLoop` saw `m_bStop` with an empty queue,
and both facts are stable afterwards. -/
def TermInv (s : Pool) : Prop :=
  ∀ (i : Nat) (th : Thread), s.m_Threads[i]? = some th → th.pc = .terminated →
    s.m_bStop = true ∧ s.m_Tasks = []

/-- The thread that takes the step of an action. -/
def Action.actor : Action → Tid
  | .worker i => .worker i
  | .caller c => .caller c
  | .call c _ => .caller c

/-- Who holds the mutex at each recorded notification: a worker notifies inside
its lock scope, a caller after leaving it. -/
def NotifyInv (s : Pool) : Prop :=
  ∀ n ∈ s.notified,
    (∀ i, n.sender = .worker i → n.holder = some (.worker i) ∧ n.all = true) ∧
    (∀ c, n.sender = .caller c → n.holder ≠ some (.caller c))

/-- The task a caller has built (lines 36-40) but not yet put in the queue. -/
@[simp] def CallerPc.pending : CallerPc → Option Task
  | .enqAcquire t | .enqCheck t | .enqEmplace t => some t
  | _ => none

/-- Every task owns a shared state of its own. -/
structure IdInv (s : Pool) : Prop where
  acc : ∀ t ∈ s.accepted, t.id < s.futures.length
  nodup : (s.accepted.map Task.id).Nodup
  pend : ∀ (c : Nat) (pc : CallerPc) (t : Task), s.callers[c]? = some pc →
      pc.pending = some t → t.id < s.futures.length ∧ ∀ u ∈ s.accepted, u.id ≠ t.id
  distinct : ∀ (c d : Nat) (pc pd : CallerPc) (t u : Task), s.callers[c]? = some pc →
      s.callers[d]? = some pd → pc.pending = some t → pd.pending = some u →
      t.id = u.id → c = d

/-- The task a worker has taken from the queue and not yet invoked. -/
@[simp] def WorkerPc.task : WorkerPc → Option Task
  | .incBusy t | .releaseTop t | .runTask t => some t
  | _ => none

/-- A dequeued task is either still in the hands of the worker that took it or
its outcome is in its shared state. -/
structure ResultInv (s : Pool) : Prop where
  held : ∀ (i : Nat) (th : Thread) (t : Task), s.m_Threads[i]? = some th →
      th.pc.task = some t → (i, t) ∈ s.dequeued
  done : ∀ (w : Nat) (t : Task), (w, t) ∈ s.dequeued →
      s.futures[t.id]? = some (some t.body) ∨
      ∃ th, s.m_Threads[w]? = some th ∧ th.pc.task = some t

/-- What the `std::thread` objects and the callers inside `Stop` know: a thread
that is no longer joinable has terminated, and the join loop has passed only
terminated, joined threads. -/
structure JoinInv (s : Pool) : Prop where
  joined : ∀ (i : Nat) (th : Thread), s.m_Threads[i]? = some th → th.joinable = false →
      th.pc = .terminated
  before : ∀ (c i : Nat),
      s.callers[c]? = some (.stopJoinable i) ∨ s.callers[c]? = some (.stopJoin i) →
      ∀ (j : Nat) (th : Thread), j < i → s.m_Threads[j]? = some th →
        th.pc = .terminated ∧ th.joinable = false

/-- All invariants of the pool. -/
structure Inv (n : Nat) (s : Pool) : Prop where
  mutex : MutexInv s
  loc : LocalInv s
  busy : BusyInv n s
  fifo : FifoInv s
  term : TermInv s
  ids : IdInv s
  res : ResultInv s
  join : JoinInv s
  note : NotifyInv s

/-! ## Schedules used to exhibit concrete states -/

/-- Boot a pool of `n` workers and `k` callers and run a schedule on it. -/
def runFrom (n k : Nat) (as : List Action) : Option Pool :=
  (boot n k).bind (run as)

/-- The worker of a 1-worker pool has taken the only task from the queue and is
about to count itself busy (line 101). -/
def toIncBusy : List Action :=
  [.call 0 (.Enqueue (.value 7)), .caller 0, .caller 0, .caller 0, .caller 0, .caller 0,
   .worker 0, .worker 0, .worker 0, .worker 0]

/-- The caller of `Enqueue` has left the lock scope of lines 42-49 and is at line 51. -/
def toEnqNotify : List Action :=
  [.call 0 (.Enqueue (.value 7)), .caller 0, .caller 0, .caller 0, .caller 0]

/-- The worker of a 1-worker pool is at line 112 after running the only task. -/
def toNotifyIdle : List Action :=
  toIncBusy ++ [.worker 0, .worker 0, .worker 0, .worker 0, .worker 0, .worker 0]

/-- One task is queued, `Stop` has set `m_bStop`, and the worker of a 1-worker
pool is at the test of line 95. -/
def toCheckStop : List Action :=
  [.call 0 (.Enqueue (.value 7)), .caller 0, .caller 0, .caller 0, .caller 0, .caller 0,
   .call 1 .Stop, .caller 1, .caller 1, .caller 1, .worker 0, .worker 0]

/-- One task has been submitted to a 1-worker pool and sits in the queue. -/
def toQueued : List Action :=
  [.call 0 (.Enqueue (.value 7)), .caller 0, .caller 0, .caller 0, .caller 0, .caller 0]

/-- Caller 1 runs `Stop` up to the join loop, then the worker wakes, takes the
queued task and invokes it. -/
def stopThenServe : List Action :=
  [.caller 1, .caller 1, .caller 1, .caller 1,
   .worker 0, .worker 0, .worker 0, .worker 0, .worker 0, .worker 0, .worker 0]

/-- Caller 1 runs `Stop` on the pool with one queued task; the worker serves the
task, finds the queue empty with `m_bStop` set and returns; caller 1 joins it. -/
def stopAndJoin : List Action :=
  [.call 1 .Stop, .caller 1, .caller 1, .caller 1, .caller 1,
   .worker 0, .worker 0, .worker 0, .worker 0, .worker 0, .worker 0, .worker 0,
   .worker 0, .worker 0, .worker 0, .worker 0, .worker 0,
   .worker 0, .worker 0, .worker 0,
   .caller 1, .caller 1]

/-- Three tasks `A`, `B`, `C` are submitted in this order to a 2-worker pool;
worker 0 takes the head, then worker 1 takes the next one. -/
def fifoTwoTaken : List Action :=
  [.call 0 (.Enqueue (.value 1)), .caller 0, .caller 0, .caller 0, .caller 0, .caller 0,
   .call 0 (.Enqueue (.value 2)), .caller 0, .caller 0, .caller 0, .caller 0, .caller 0,
   .call 0 (.Enqueue (.value 3)), .caller 0, .caller 0, .caller 0, .caller 0, .caller 0,
   .worker 0, .worker 0, .worker 0, .worker 0, .worker 0, .worker 0,
   .worker 1, .worker 1, .worker 1, .worker 1, .worker 1, .worker 1]

/-- Worker 1 finishes its task first and takes the third one. -/
def fifoThirdTaken : List Action :=
  [.worker 1, .worker 1, .worker 1, .worker 1, .worker 1,
   .worker 1, .worker 1, .worker 1, .worker 1, .worker 1, .worker 1]

theorem set_lookup {α : Type} {l : List α} {i j : Nat} {a x : α}
    (h : (l.set i a)[j]? = some x) :
    (j = i ∧ x = a ∧ i < l.length) ∨ ((j ≠ i ∧ i ≠ j) ∧ l[j]? = some x) := by
  rw [List.getElem?_set] at h
  by_cases hij : i = j
  · subst hij
    by_cases hl : i < l.length
    · simp [hl] at h
      exact Or.inl ⟨rfl, h.symm, hl⟩
    · simp [hl] at h
  · simp [hij] at h
    exact Or.inr ⟨⟨fun e => hij e.symm, hij⟩, h⟩

theorem MutexInv.mutex_workerStep {s s' : Pool} {i : Nat} (h : MutexInv s)
    (hs : workerStep i s = some s') : MutexInv s' := by
  unfold TP.workerStep at hs
  split at hs
  · simp at hs
  · rename_i th hth
    have hi := h.w i th hth
    constructor
    · intro j th' hj
      split at hs <;> (try split at hs) <;> simp at hs <;> subst hs <;>
        simp only [Pool.wgoto, Pool.notify] at hj ⊢ <;>
        rcases set_lookup hj with ⟨rfl, rfl, _⟩ | ⟨⟨hne, hne'⟩, hj'⟩ <;>
        (try have hj2 := h.w j th' hj') <;>
        simp_all
    · intro c pc hc
      have hc2 := h.c c pc
      split at hs <;> (try split at hs) <;> simp at hs <;> subst hs <;>
        simp only [Pool.wgoto, Pool.notify] at hc ⊢ <;>
        simp_all

theorem MutexInv.mutex_callerStep {s s' : Pool} {c : Nat} (h : MutexInv s)
    (hs : callerStep c s = some s') : MutexInv s' := by
  unfold TP.callerStep at hs
  split at hs
  · simp at hs
  · rename_i pc0 hpc0
    have hi := h.c c pc0 hpc0
    constructor
    · intro j th' hj
      split at hs <;> (try split at hs) <;> (try split at hs) <;> (try split at hs) <;> simp at hs <;> subst hs <;>
        simp only [Pool.cgoto, Pool.notify] at hj ⊢ <;>
        (try (rcases set_lookup hj with ⟨rfl, rfl, _⟩ | ⟨⟨hne, hne'⟩, hj'⟩)) <;>
        (try have hj2 := h.w j th' hj') <;>
        (try have hj3 := h.w j th' hj) <;>
        (try have hj4 := h.w j _ (by assumption)) <;>
        simp_all
    · intro d pc hd
      split at hs <;> (try split at hs) <;> (try split at hs) <;> (try split at hs) <;> simp at hs <;> subst hs <;>
        simp only [Pool.cgoto, Pool.notify] at hd ⊢ <;>
        rcases set_lookup hd with ⟨rfl, rfl, _⟩ | ⟨⟨hne, hne'⟩, hd'⟩ <;>
        (try have hd2 := h.c d pc hd') <;>
        simp_all

theorem MutexInv.mutex_callStep {s s' : Pool} {c : Nat} {op : Call} (h : MutexInv s)
    (hs : callStep c op s = some s') : MutexInv s' := by
  unfold TP.callStep at hs
  split at hs
  · rename_i r hpc0
    have hi := h.c c _ hpc0
    constructor
    · intro j th' hj
      have hj2 := h.w j th'
      cases op <;> simp at hs <;> subst hs <;> simp only [Pool.cgoto] at hj ⊢ <;> simp_all
    · intro d pc hd
      cases op <;> simp at hs <;> subst hs <;> simp only [Pool.cgoto] at hd ⊢ <;>
        rcases set_lookup hd with ⟨rfl, rfl, _⟩ | ⟨⟨hne, hne'⟩, hd'⟩ <;>
        (try have hd2 := h.c d pc hd') <;>
        simp_all
  · simp at hs

theorem MutexInv.mutex_step {s s' : Pool} {a : Action} (h : MutexInv s)
    (hs : step a s = some s') : MutexInv s' := by
  cases a with
  | worker i => exact h.mutex_workerStep hs
  | caller c => exact h.mutex_callerStep hs
  | call c op => exact h.mutex_callStep hs

theorem LocalInv.local_workerStep {s s' : Pool} {i : Nat} (hm : MutexInv s) (h : LocalInv s)
    (hs : workerStep i s = some s') : LocalInv s' := by
  unfold TP.workerStep at hs
  split at hs
  · simp at hs
  · rename_i th hth
    have hi := hm.w i th hth
    have hi3 := h.checkStop i th hth
    constructor
    · intro j th' hj hpc
      split at hs <;> (try split at hs) <;> simp at hs <;> subst hs <;>
        simp only [Pool.wgoto, Pool.notify] at hj ⊢ <;>
        rcases set_lookup hj with ⟨rfl, rfl, _⟩ | ⟨⟨hne, hne'⟩, hj'⟩ <;>
        (try have hj2 := hm.w j th' hj') <;>
        (try have hj3 := h.checkStop j th' hj' hpc) <;>
        simp_all
    · intro j th' hj hpc
      split at hs <;> (try split at hs) <;> simp at hs <;> subst hs <;>
        simp only [Pool.wgoto, Pool.notify] at hj ⊢ <;>
        rcases set_lookup hj with ⟨rfl, rfl, _⟩ | ⟨⟨hne, hne'⟩, hj'⟩ <;>
        (try have hj2 := hm.w j th' hj') <;>
        (try have hj3 := h.takeTask j th' hj' hpc) <;>
        (try simp_all) <;> (try tauto)
    · intro j th' hj hpc
      split at hs <;> (try split at hs) <;> simp at hs <;> subst hs <;>
        simp only [Pool.wgoto, Pool.notify] at hj ⊢ <;>
        rcases set_lookup hj with ⟨rfl, rfl, _⟩ | ⟨⟨hne, hne'⟩, hj'⟩ <;>
        (try have hj2 := hm.w j th' hj') <;>
        (try have hj3 := h.notifyIdle j th' hj' hpc) <;>
        simp_all
    · intro c t hc
      have hc2 := hm.c c (.enqEmplace t)
      have hc3 := h.enqEmplace c t
      split at hs <;> (try split at hs) <;> simp at hs <;> subst hs <;>
        simp only [Pool.wgoto, Pool.notify] at hc hc2 hc3 ⊢ <;>
        simp_all
    · intro c hc
      have hc2 := hm.c c .waitReturn
      have hc3 := h.waitReturn c
      split at hs <;> (try split at hs) <;> simp at hs <;> subst hs <;>
        simp only [Pool.wgoto, Pool.notify] at hc hc2 hc3 ⊢ <;>
        simp_all

theorem LocalInv.local_callerStep {s s' : Pool} {c : Nat} (hm : MutexInv s) (h : LocalInv s)
    (hs : callerStep c s = some s') : LocalInv s' := by
  unfold TP.callerStep at hs
  split at hs
  · simp at hs
  · rename_i pc0 hpc0
    have hi := hm.c c pc0 hpc0
    constructor
    · intro j th' hj hpc
      split at hs <;> (try split at hs) <;> (try split at hs) <;> (try split at hs) <;> simp at hs <;> subst hs <;>
        simp only [Pool.cgoto, Pool.notify] at hj ⊢ <;>
        (try (rcases set_lookup hj with ⟨rfl, rfl, _⟩ | ⟨⟨hne, hne'⟩, hj'⟩)) <;>
        (try have hj2 := hm.w j th' hj') <;>
        (try have hj2' := h.checkStop j th' hj') <;>
        (try have hj3 := hm.w j th' hj) <;>
        (try have hj3' := h.checkStop j th' hj) <;>
        (try have hj4 := hm.w j _ (by assumption)) <;>
        (try have hj4' := h.checkStop j _ (by assumption)) <;>
        (try simp_all) <;> (try tauto)
    · intro j th' hj hpc
      split at hs <;> (try split at hs) <;> (try split at hs) <;> (try split at hs) <;> simp at hs <;> subst hs <;>
        simp only [Pool.cgoto, Pool.notify] at hj ⊢ <;>
        (try (rcases set_lookup hj with ⟨rfl, rfl, _⟩ | ⟨⟨hne, hne'⟩, hj'⟩)) <;>
        (try have hj2 := hm.w j th' hj') <;>
        (try have hj2' := h.takeTask j th' hj') <;>
        (try have hj3 := hm.w j th' hj) <;>
        (try have hj3' := h.takeTask j th' hj) <;>
        (try have hj4 := hm.w j _ (by assumption)) <;>
        (try have hj4' := h.takeTask j _ (by assumption)) <;>
        (try simp_all) <;> (try tauto)
    · intro j th' hj hpc
      split at hs <;> (try split at hs) <;> (try split at hs) <;> (try split at hs) <;> simp at hs <;> subst hs <;>
        simp only [Pool.cgoto, Pool.notify] at hj ⊢ <;>
        (try (rcases set_lookup hj with ⟨rfl, rfl, _⟩ | ⟨⟨hne, hne'⟩, hj'⟩)) <;>
        (try have hj2 := hm.w j th' hj') <;>
        (try have hj2' := h.notifyIdle j th' hj') <;>
        (try have hj3 := hm.w j th' hj) <;>
        (try have hj3' := h.notifyIdle j th' hj) <;>
        (try have hj4 := hm.w j _ (by assumption)) <;>
        (try have hj4' := h.notifyIdle j _ (by assumption)) <;>
        (try simp_all) <;> (try tauto)
    · intro d t hd
      split at hs <;> (try split at hs) <;> (try split at hs) <;> (try split at hs) <;> simp at hs <;> subst hs <;>
        simp only [Pool.cgoto, Pool.notify] at hd ⊢ <;>
        rcases set_lookup hd with ⟨rfl, hd1, _⟩ | ⟨⟨hne, hne'⟩, hd'⟩ <;>
        (try have hd2 := hm.c d _ hd') <;>
        (try have hd3 := h.enqEmplace d t hd') <;>
        (try simp_all) <;> (try tauto)
    · intro d hd
      split at hs <;> (try split at hs) <;> (try split at hs) <;> (try split at hs) <;> simp at hs <;> subst hs <;>
        simp only [Pool.cgoto, Pool.notify] at hd ⊢ <;>
        rcases set_lookup hd with ⟨rfl, hd1, _⟩ | ⟨⟨hne, hne'⟩, hd'⟩ <;>
        (try have hd2 := hm.c d _ hd') <;>
        (try have hd3 := h.waitReturn d hd') <;>
        (try simp_all) <;> (try tauto)

theorem LocalInv.local_callStep {s s' : Pool} {c : Nat} {op : Call} (h : LocalInv s)
    (hs : callStep c op s = some s') : LocalInv s' := by
  unfold TP.callStep at hs
  split at hs
  · rename_i r hpc0
    constructor
    · intro j th' hj
      have hj2 := h.checkStop j th'
      cases op <;> simp at hs <;> subst hs <;> simp only [Pool.cgoto] at hj ⊢ <;> simp_all
    · intro j th' hj
      have hj2 := h.takeTask j th'
      cases op <;> simp at hs <;> subst hs <;> simp only [Pool.cgoto] at hj ⊢ <;> simp_all
    · intro j th' hj
      have hj2 := h.notifyIdle j th'
      cases op <;> simp at hs <;> subst hs <;> simp only [Pool.cgoto] at hj ⊢ <;> simp_all
    · intro d t hd
      cases op <;> simp at hs <;> subst hs <;> simp only [Pool.cgoto] at hd ⊢ <;>
        rcases set_lookup hd with ⟨rfl, hd1, _⟩ | ⟨⟨hne, hne'⟩, hd'⟩ <;>
        (try have hd3 := h.enqEmplace d t hd') <;>
        (try simp_all)
    · intro d hd
      cases op <;> simp at hs <;> subst hs <;> simp only [Pool.cgoto] at hd ⊢ <;>
        rcases set_lookup hd with ⟨rfl, hd1, _⟩ | ⟨⟨hne, hne'⟩, hd'⟩ <;>
        (try have hd3 := h.waitReturn d hd') <;>
        (try simp_all)
  · simp at hs

theorem LocalInv.local_step {s s' : Pool} {a : Action} (hm : MutexInv s) (h : LocalInv s)
    (hs : step a s = some s') : LocalInv s' := by
  cases a with
  | worker i => exact h.local_workerStep hm hs
  | caller c => exact h.local_callerStep hm hs
  | call c op => exact h.local_callStep hs

theorem countP_set_lookup {α : Type} (p : α → Bool) {l : List α} {i : Nat} {a : α}
    (h : l[i]? = some a) :
    (if p a then 1 else 0) ≤ l.countP p ∧
    ∀ b, (l.set i b).countP p = l.countP p + (if p b then 1 else 0) - (if p a then 1 else 0) := by
  obtain ⟨hi, rfl⟩ := List.getElem?_eq_some.mp h
  have h2 := List.boole_getElem_le_countP p l i hi
  refine ⟨h2, fun b => ?_⟩
  have h1 := List.countP_set p l i b hi
  omega

theorem BusyInv.busy_workerStep {n : Nat} {s s' : Pool} {i : Nat} (hn : n < SIZE_MOD)
    (h : BusyInv n s) (hs : workerStep i s = some s') : BusyInv n s' := by
  unfold TP.workerStep at hs
  split at hs
  · simp at hs
  · rename_i th hth
    have hlen := h.len
    have hb := h.busy
    obtain ⟨hge, hrw⟩ := countP_set_lookup (fun th : Thread => th.pc.executing) hth
    have hle : s.m_Threads.countP (fun th => th.pc.executing) + 1
        - (if th.pc.executing then 1 else 0) ≤ n := by
      have : (s.m_Threads.set i { th with pc := .acquireBottom }).countP
          (fun th : Thread => th.pc.executing)
          ≤ (s.m_Threads.set i { th with pc := .acquireBottom }).length :=
        List.countP_le_length _
      rw [hrw] at this
      simpa [hlen] using this
    unfold Pool.executingCount at hb
    unfold SIZE_MOD at hn
    split at hs <;> (try split at hs) <;> simp at hs <;> subst hs <;>
      refine ⟨by simpa [Pool.wgoto, Pool.notify] using hlen, ?_⟩ <;>
      simp only [Pool.wgoto, Pool.notify, Pool.executingCount, hrw, SIZE_MOD] <;>
      generalize List.countP (fun th : Thread => th.pc.executing) s.m_Threads = k at hb hge hle ⊢ <;>
      simp_all <;> omega

theorem BusyInv.busy_callerStep {n : Nat} {s s' : Pool} {c : Nat}
    (h : BusyInv n s) (hs : callerStep c s = some s') : BusyInv n s' := by
  unfold TP.callerStep at hs
  split at hs
  · simp at hs
  · have hlen := h.len
    have hb := h.busy
    unfold Pool.executingCount at hb
    split at hs <;> (try split at hs) <;> (try split at hs) <;> (try split at hs) <;> simp at hs <;> subst hs <;>
      refine ⟨by simpa [Pool.cgoto, Pool.notify] using hlen, ?_⟩ <;>
      simp only [Pool.cgoto, Pool.notify, Pool.executingCount] <;>
      (try rw [(countP_set_lookup (fun th : Thread => th.pc.executing) (by assumption)).2]) <;>
      (try have hge := (countP_set_lookup (fun th : Thread => th.pc.executing) (by assumption)).1) <;>
      generalize List.countP (fun th : Thread => th.pc.executing) s.m_Threads = k at * <;>
      simp_all <;> omega

theorem BusyInv.busy_callStep {n : Nat} {s s' : Pool} {c : Nat} {op : Call}
    (h : BusyInv n s) (hs : callStep c op s = some s') : BusyInv n s' := by
  unfold TP.callStep at hs
  split at hs
  · cases op <;> simp at hs <;> subst hs <;> exact ⟨h.len, h.busy⟩
  · simp at hs

theorem BusyInv.busy_step {n : Nat} {s s' : Pool} {a : Action} (hn : n < SIZE_MOD)
    (h : BusyInv n s) (hs : step a s = some s') : BusyInv n s' := by
  cases a with
  | worker i => exact h.busy_workerStep hn hs
  | caller c => exact h.busy_callerStep hs
  | call c op => exact h.busy_callStep hs

theorem FifoInv.fifo_step {s s' : Pool} {a : Action} (h : FifoInv s)
    (hs : step a s = some s') : FifoInv s' := by
  unfold FifoInv at h ⊢
  cases a with
  | worker i =>
    simp only [TP.step, TP.workerStep] at hs
    split at hs
    · simp at hs
    · split at hs <;> (try split at hs) <;> simp at hs <;> subst hs <;>
        simp_all [Pool.wgoto, Pool.notify]
  | caller c =>
    simp only [TP.step, TP.callerStep] at hs
    split at hs
    · simp at hs
    · split at hs <;> (try split at hs) <;> (try split at hs) <;> (try split at hs) <;> simp at hs <;> subst hs <;>
        simp only [Pool.cgoto, Pool.notify] <;> (try exact h) <;> rw [← h] <;> simp
  | call c op =>
    simp only [TP.step, TP.callStep] at hs
    split at hs
    · cases op <;> simp at hs <;> subst hs <;> exact h
    · simp at hs

theorem TermInv.term_workerStep {s s' : Pool} {i : Nat} (h : TermInv s)
    (hs : workerStep i s = some s') : TermInv s' := by
  unfold TP.workerStep at hs
  split at hs
  · simp at hs
  · rename_i th hth
    intro j th' hj hpc
    split at hs <;> (try split at hs) <;> simp at hs <;> subst hs <;>
      simp only [Pool.wgoto, Pool.notify] at hj ⊢ <;>
      rcases set_lookup hj with ⟨rfl, rfl, _⟩ | ⟨⟨hne, hne'⟩, hj'⟩ <;>
      (try have hj2 := h j th' hj' hpc) <;>
      (try simp_all)

theorem TermInv.term_callerStep {s s' : Pool} {c : Nat} (hl : LocalInv s) (h : TermInv s)
    (hs : callerStep c s = some s') : TermInv s' := by
  unfold TP.callerStep at hs
  split at hs
  · simp at hs
  · rename_i pc0 hpc0
    have hi := hl.enqEmplace c
    intro j th' hj hpc
    split at hs <;> (try split at hs) <;> (try split at hs) <;> (try split at hs) <;> simp at hs <;> subst hs <;>
      simp only [Pool.cgoto, Pool.notify] at hj ⊢ <;>
      (try (rcases set_lookup hj with ⟨rfl, rfl, _⟩ | ⟨⟨hne, hne'⟩, hj'⟩)) <;>
      (try have hj2 := h j th' hj' hpc) <;>
      (try have hj3 := h j th' hj hpc) <;>
      (try have hj4 := h j _ (by assumption)) <;>
      (try simp_all)

theorem TermInv.term_callStep {s s' : Pool} {c : Nat} {op : Call} (h : TermInv s)
    (hs : callStep c op s = some s') : TermInv s' := by
  unfold TP.callStep at hs
  split at hs
  · cases op <;> simp at hs <;> subst hs <;> exact h
  · simp at hs

theorem TermInv.term_step {s s' : Pool} {a : Action} (hl : LocalInv s) (h : TermInv s)
    (hs : step a s = some s') : TermInv s' := by
  cases a with
  | worker i => exact h.term_workerStep hs
  | caller c => exact h.term_callerStep hl hs
  | call c op => exact h.term_callStep hs

/-- Only the holder of `m_QueueMutex` changes the queue, the stop flag or the busy counter. -/
theorem guarded_write {s s' : Pool} {a : Action} (hm : MutexInv s) (hs : step a s = some s')
    (hw : s'.m_Tasks ≠ s.m_Tasks ∨ s'.m_bStop ≠ s.m_bStop ∨ s'.m_iBusyThreads ≠ s.m_iBusyThreads) :
    s.m_QueueMutex = some a.actor := by
  cases a with
  | worker i =>
    simp only [TP.step, TP.workerStep] at hs
    split at hs
    · simp at hs
    · rename_i th hth
      have hi := hm.w i th hth
      split at hs <;> (try split at hs) <;> simp at hs <;> subst hs <;>
        simp_all [Pool.wgoto, Pool.notify, Action.actor]
  | caller c =>
    simp only [TP.step, TP.callerStep] at hs
    split at hs
    · simp at hs
    · rename_i pc0 hpc0
      have hi := hm.c c pc0 hpc0
      split at hs <;> (try split at hs) <;> (try split at hs) <;> (try split at hs) <;> simp at hs <;> subst hs <;>
        simp_all [Pool.cgoto, Pool.notify, Action.actor]
  | call c op =>
    simp only [TP.step, TP.callStep] at hs
    split at hs
    · cases op <;> simp at hs <;> subst hs <;> simp [Pool.cgoto] at hw
    · simp at hs

theorem NotifyInv.notify_step {s s' : Pool} {a : Action} (hm : MutexInv s) (h : NotifyInv s)
    (hs : step a s = some s') : NotifyInv s' := by
  unfold NotifyInv at h ⊢
  cases a with
  | worker i =>
    simp only [TP.step, TP.workerStep] at hs
    split at hs
    · simp at hs
    · rename_i th hth
      have hi := hm.w i th hth
      split at hs <;> (try split at hs) <;> simp at hs <;> subst hs <;>
        simp only [Pool.wgoto, Pool.notify] <;> (try exact h) <;>
        intro n hn <;> rcases List.mem_append.mp hn with hn | hn <;>
        (try exact h n hn) <;> simp_all
  | caller c =>
    simp only [TP.step, TP.callerStep] at hs
    split at hs
    · simp at hs
    · rename_i pc0 hpc0
      have hi := hm.c c pc0 hpc0
      split at hs <;> (try split at hs) <;> (try split at hs) <;> (try split at hs) <;> simp at hs <;> subst hs <;>
        simp only [Pool.cgoto, Pool.notify] <;> (try exact h) <;>
        intro n hn <;> rcases List.mem_append.mp hn with hn | hn <;>
        (try exact h n hn) <;> simp_all
  | call c op =>
    simp only [TP.step, TP.callStep] at hs
    split at hs
    · cases op <;> simp at hs <;> subst hs <;> exact h
    · simp at hs

theorem IdInv.ids_workerStep {s s' : Pool} {i : Nat} (h : IdInv s)
    (hs : workerStep i s = some s') : IdInv s' := by
  unfold TP.workerStep at hs
  split at hs
  · simp at hs
  · obtain ⟨h1, h2, h3, h4⟩ := h
    split at hs <;> (try split at hs) <;> simp at hs <;> subst hs <;>
      refine ⟨?_, ?_, ?_, ?_⟩ <;>
      simp only [Pool.wgoto, Pool.notify, List.length_set] <;> assumption

theorem IdInv.ids_callerStep {s s' : Pool} {c : Nat} (h : IdInv s)
    (hs : callerStep c s = some s') : IdInv s' := by
  unfold TP.callerStep at hs
  split at hs
  · simp at hs
  · rename_i pc0 hpc0
    have hp := h.pend c pc0
    constructor
    · intro t ht
      have h1 := h.acc t
      split at hs <;> (try split at hs) <;> (try split at hs) <;> (try split at hs) <;> simp at hs <;> subst hs <;>
        simp only [Pool.cgoto, Pool.notify] at ht ⊢ <;> (try exact h1 ht) <;>
        simp_all <;> rcases ht with ht | rfl <;> simp_all
    · have h1 := h.nodup
      split at hs <;> (try split at hs) <;> (try split at hs) <;> (try split at hs) <;> simp at hs <;> subst hs <;>
        simp only [Pool.cgoto, Pool.notify] <;> (try exact h1) <;>
        simp_all [List.nodup_append] <;>
        intro u hu <;> exact hp.2 u hu
    · intro d pd t hd hpd
      have hdd := h.distinct c d pc0 pd
      split at hs <;> (try split at hs) <;> (try split at hs) <;> (try split at hs) <;> simp at hs <;> subst hs <;>
        simp only [Pool.cgoto, Pool.notify] at hd ⊢ <;>
        rcases set_lookup hd with ⟨rfl, rfl, _⟩ | ⟨⟨hne, hne'⟩, hd'⟩ <;>
        (try have hd2 := h.pend d pd t hd' hpd) <;>
        (try simp_all) <;> (try (intro a; exact (hne (hdd _ hd' _ a).symm))) <;>
        (try (intro u hu; rcases hu with hu | rfl; exact hd2.2 u hu; exact hdd))
    · intro d e pd pe t u hd he hpd hpe hid
      have hdd := h.distinct d e
      have hdc := h.distinct d c
      have hce := h.distinct c e
      split at hs <;> (try split at hs) <;> (try split at hs) <;> (try split at hs) <;> simp at hs <;> subst hs <;>
        simp only [Pool.cgoto, Pool.notify] at hd he ⊢ <;>
        rcases set_lookup hd with ⟨rfl, rfl, _⟩ | ⟨⟨hne, hne'⟩, hd'⟩ <;>
        rcases set_lookup he with ⟨rfl, rfl, _⟩ | ⟨⟨hne2, hne2'⟩, he'⟩ <;>
        (try rfl) <;>
        (try exact hdd _ _ _ _ hd' he' hpd hpe hid) <;>
        (try simp at hpd) <;> (try simp at hpe) <;>
        (try (subst hpd; exact (hce _ _ _ _ hpc0 he' rfl hpe hid))) <;>
        (try (subst hpe; exact (hdc _ _ _ _ hd' hpc0 hpd rfl hid)))

theorem IdInv.ids_callStep {s s' : Pool} {c : Nat} {op : Call} (h : IdInv s)
    (hs : callStep c op s = some s') : IdInv s' := by
  unfold TP.callStep at hs
  split at hs
  · rename_i r hpc0
    cases op with
    | Enqueue body =>
      simp at hs
      subst hs
      constructor
      · intro t ht
        have := h.acc t ht
        simp only [Pool.cgoto, List.length_append, List.length_singleton]
        omega
      · exact h.nodup
      · intro d pd t hd hpd
        simp only [Pool.cgoto, List.length_append, List.length_singleton] at hd ⊢
        rcases set_lookup hd with ⟨rfl, rfl, _⟩ | ⟨⟨hne, hne'⟩, hd'⟩
        · simp at hpd
          subst hpd
          refine ⟨by simp, fun u hu => ?_⟩
          have := h.acc u hu
          simp
          omega
        · have := h.pend d pd t hd' hpd
          exact ⟨by omega, this.2⟩
      · intro d e pd pe t u hd he hpd hpe hid
        simp only [Pool.cgoto] at hd he
        rcases set_lookup hd with ⟨rfl, rfl, _⟩ | ⟨⟨hne, hne'⟩, hd'⟩ <;>
          rcases set_lookup he with ⟨rfl, rfl, _⟩ | ⟨⟨hne2, hne2'⟩, he'⟩
        · rfl
        · simp at hpd
          subst hpd
          have := (h.pend e pe u he' hpe).1
          simp at hid
          omega
        · simp at hpe
          subst hpe
          have := (h.pend d pd t hd' hpd).1
          simp at hid
          omega
        · exact h.distinct d e pd pe t u hd' he' hpd hpe hid
    | Wait =>
      simp at hs
      subst hs
      refine ⟨h.acc, h.nodup, ?_, ?_⟩
      · intro d pd t hd hpd
        simp only [Pool.cgoto] at hd ⊢
        rcases set_lookup hd with ⟨rfl, rfl, _⟩ | ⟨⟨hne, hne'⟩, hd'⟩
        · simp at hpd
        · exact h.pend d pd t hd' hpd
      · intro d e pd pe t u hd he hpd hpe hid
        simp only [Pool.cgoto] at hd he
        rcases set_lookup hd with ⟨rfl, rfl, _⟩ | ⟨⟨hne, hne'⟩, hd'⟩ <;>
          rcases set_lookup he with ⟨rfl, rfl, _⟩ | ⟨⟨hne2, hne2'⟩, he'⟩
        · rfl
        · simp at hpd
        · simp at hpe
        · exact h.distinct d e pd pe t u hd' he' hpd hpe hid
    | Stop =>
      simp at hs
      subst hs
      refine ⟨h.acc, h.nodup, ?_, ?_⟩
      · intro d pd t hd hpd
        simp only [Pool.cgoto] at hd ⊢
        rcases set_lookup hd with ⟨rfl, rfl, _⟩ | ⟨⟨hne, hne'⟩, hd'⟩
        · simp at hpd
        · exact h.pend d pd t hd' hpd
      · intro d e pd pe t u hd he hpd hpe hid
        simp only [Pool.cgoto] at hd he
        rcases set_lookup hd with ⟨rfl, rfl, _⟩ | ⟨⟨hne, hne'⟩, hd'⟩ <;>
          rcases set_lookup he with ⟨rfl, rfl, _⟩ | ⟨⟨hne2, hne2'⟩, he'⟩
        · rfl
        · simp at hpd
        · simp at hpe
        · exact h.distinct d e pd pe t u hd' he' hpd hpe hid
  · simp at hs

theorem IdInv.ids_step {s s' : Pool} {a : Action} (h : IdInv s)
    (hs : step a s = some s') : IdInv s' := by
  cases a with
  | worker i => exact h.ids_workerStep hs
  | caller c => exact h.ids_callerStep hs
  | call c op => exact h.ids_callStep hs

/-- Identities of shared states are unique among the dequeued tasks. -/
theorem dequeued_id_inj {s : Pool} (hf : FifoInv s) (hid : IdInv s) {w w' : Nat} {t t' : Task}
    (h1 : (w, t) ∈ s.dequeued) (h2 : (w', t') ∈ s.dequeued) (h : t.id = t'.id) : t = t' := by
  have hn := hid.nodup
  rw [← hf, List.map_append, List.nodup_append] at hn
  have ht : t ∈ s.dequeued.map Prod.snd := List.mem_map.mpr ⟨(w, t), h1, rfl⟩
  have ht' : t' ∈ s.dequeued.map Prod.snd := List.mem_map.mpr ⟨(w', t'), h2, rfl⟩
  exact List.inj_on_of_nodup_map hn.1 ht ht' h

theorem dequeued_accepted {s : Pool} (hf : FifoInv s) {w : Nat} {t : Task}
    (h1 : (w, t) ∈ s.dequeued) : t ∈ s.accepted := by
  rw [← hf]
  exact List.mem_append_left _ (List.mem_map.mpr ⟨(w, t), h1, rfl⟩)

theorem holder_frame {l : List Thread} {i w : Nat} {th thNew : Thread} {t : Task}
    (hth : l[i]? = some th)
    (hsame : ∀ u, th.pc.task = some u → thNew.pc.task = some u)
    (h : ∃ th', l[w]? = some th' ∧ th'.pc.task = some t) :
    ∃ th', (l.set i thNew)[w]? = some th' ∧ th'.pc.task = some t := by
  obtain ⟨th', hw, hpc⟩ := h
  by_cases hwi : i = w
  · subst hwi
    rw [hth] at hw
    cases hw
    refine ⟨thNew, ?_, hsame t hpc⟩
    rw [List.getElem?_set_self (List.getElem?_eq_some.mp hth).1]
  · exact ⟨th', by rw [List.getElem?_set_ne hwi]; exact hw, hpc⟩

theorem ResultInv.result_workerStep {s s' : Pool} {i : Nat} (hf : FifoInv s) (hid : IdInv s)
    (h : ResultInv s) (hs : workerStep i s = some s') : ResultInv s' := by
  unfold TP.workerStep at hs
  split at hs
  · simp at hs
  · rename_i th hth
    have hheld := h.held i th
    have hlt := (List.getElem?_eq_some.mp hth).1
    constructor
    · intro j th' t hj hpc
      split at hs <;> (try split at hs) <;> simp at hs <;> subst hs <;>
        simp only [Pool.wgoto, Pool.notify] at hj ⊢ <;>
        rcases set_lookup hj with ⟨rfl, rfl, _⟩ | ⟨⟨hne, hne'⟩, hj'⟩ <;>
        (try have hj2 := h.held j th' t hj' hpc) <;>
        (try simp_all)
    · intro w t hw
      split at hs <;> (try split at hs) <;> simp at hs <;> subst hs <;>
        simp only [Pool.wgoto, Pool.notify] at hw ⊢ <;>
        (try exact (h.done w t hw).imp id (holder_frame hth (by intro u; simp_all)))
      · -- lines 98-99: the task moves from the queue to the worker
        rcases List.mem_append.mp hw with hw | hw
        · exact (h.done w t hw).imp id (holder_frame hth (by intro u; simp_all))
        · simp at hw
          obtain ⟨rfl, rfl⟩ := hw
          exact Or.inr ⟨_, List.getElem?_set_self hlt, rfl⟩
      · -- line 104: the outcome is written to the shared state
        rename_i t0 hpc0
        have hd0 : (i, t0) ∈ s.dequeued := h.held i th t0 hth (by simp [hpc0])
        have hlen : t0.id < s.futures.length := hid.acc t0 (dequeued_accepted hf hd0)
        by_cases hid0 : t.id = t0.id
        · have : t = t0 := dequeued_id_inj hf hid hw hd0 hid0
          subst this
          exact Or.inl (List.getElem?_set_self hlen)
        · rcases h.done w t hw with hl | ⟨th', hw', hpc'⟩
          · left
            rw [List.getElem?_set_ne (fun e => hid0 e.symm)]
            exact hl
          · by_cases hwi : i = w
            · subst hwi
              rw [hth] at hw'
              cases hw'
              simp [hpc0] at hpc'
              exact absurd (by rw [hpc']) hid0
            · exact Or.inr ⟨th', by rw [List.getElem?_set_ne hwi]; exact hw', hpc'⟩

theorem ResultInv.result_callerStep {s s' : Pool} {c : Nat}
    (h : ResultInv s) (hs : callerStep c s = some s') : ResultInv s' := by
  unfold TP.callerStep at hs
  split at hs
  · simp at hs
  · constructor
    · intro j th' t hj hpc
      split at hs <;> (try split at hs) <;> (try split at hs) <;> (try split at hs) <;> simp at hs <;> subst hs <;>
        simp only [Pool.cgoto, Pool.notify] at hj ⊢ <;>
        (try exact h.held j th' t hj hpc) <;>
        rcases set_lookup hj with ⟨rfl, rfl, _⟩ | ⟨⟨hne, hne'⟩, hj'⟩ <;>
        (try exact h.held j th' t hj' hpc) <;>
        exact h.held j _ t (by assumption) (by exact hpc)
    · intro w t hw
      split at hs <;> (try split at hs) <;> (try split at hs) <;> (try split at hs) <;> simp at hs <;> subst hs <;>
        simp only [Pool.cgoto, Pool.notify] at hw ⊢ <;>
        (try exact h.done w t hw) <;>
        exact (h.done w t hw).imp id (holder_frame (by assumption) (by exact fun u hu => hu))

theorem ResultInv.result_callStep {s s' : Pool} {c : Nat} {op : Call} (h : ResultInv s)
    (hs : callStep c op s = some s') : ResultInv s' := by
  unfold TP.callStep at hs
  split at hs
  · cases op <;> simp at hs <;> subst hs <;> refine ⟨h.held, ?_⟩ <;> (try exact h.done)
    intro w t hw
    rcases h.done w t hw with hl | hr
    · left
      simp only [Pool.cgoto]
      rw [List.getElem?_append_left (List.getElem?_eq_some.mp hl).1]
      exact hl
    · exact Or.inr hr
  · simp at hs

theorem ResultInv.result_step {s s' : Pool} {a : Action} (hf : FifoInv s) (hid : IdInv s)
    (h : ResultInv s) (hs : step a s = some s') : ResultInv s' := by
  cases a with
  | worker i => exact h.result_workerStep hf hid hs
  | caller c => exact h.result_callerStep hs
  | call c op => exact h.result_callStep hs

theorem before_lookup {l : List CallerPc} {c d k : Nat} {pc : CallerPc}
    (hd : (l.set c pc)[d]? = some (.stopJoinable k) ∨ (l.set c pc)[d]? = some (.stopJoin k)) :
    (d = c ∧ (pc = .stopJoinable k ∨ pc = .stopJoin k)) ∨
    (l[d]? = some (.stopJoinable k) ∨ l[d]? = some (.stopJoin k)) := by
  rcases hd with hd | hd <;> rcases set_lookup hd with ⟨rfl, h, _⟩ | ⟨_, hd'⟩
  · exact Or.inl ⟨rfl, Or.inl h.symm⟩
  · exact Or.inr (Or.inl hd')
  · exact Or.inl ⟨rfl, Or.inr h.symm⟩
  · exact Or.inr (Or.inr hd')

theorem JoinInv.join_workerStep {s s' : Pool} {i : Nat} (h : JoinInv s)
    (hs : workerStep i s = some s') : JoinInv s' := by
  unfold TP.workerStep at hs
  split at hs
  · simp at hs
  · rename_i th hth
    have hi := h.joined i th hth
    constructor
    · intro j th' hj hjn
      split at hs <;> (try split at hs) <;> simp at hs <;> subst hs <;>
        simp only [Pool.wgoto, Pool.notify] at hj ⊢ <;>
        rcases set_lookup hj with ⟨rfl, rfl, _⟩ | ⟨⟨hne, hne'⟩, hj'⟩ <;>
        (try exact h.joined j th' hj' hjn) <;>
        simp_all
    · intro d k hd j th' hjk hj
      have hb := h.before d k
      split at hs <;> (try split at hs) <;> simp at hs <;> subst hs <;>
        simp only [Pool.wgoto, Pool.notify] at hj hd ⊢ <;>
        rcases set_lookup hj with ⟨rfl, rfl, _⟩ | ⟨⟨hne, hne'⟩, hj'⟩ <;>
        (try exact hb hd j th' hjk hj') <;>
        (have hbj := hb hd j th hjk hth) <;>
        simp_all

theorem JoinInv.join_callerStep {s s' : Pool} {c : Nat} (h : JoinInv s)
    (hs : callerStep c s = some s') : JoinInv s' := by
  unfold TP.callerStep at hs
  split at hs
  · simp at hs
  · rename_i pc0 hpc0
    constructor
    · intro j th' hj hjn
      split at hs <;> (try split at hs) <;> (try split at hs) <;> (try split at hs) <;> simp at hs <;> subst hs <;>
        simp only [Pool.cgoto, Pool.notify] at hj ⊢ <;>
        (try exact h.joined j th' hj hjn) <;>
        rcases set_lookup hj with ⟨rfl, rfl, _⟩ | ⟨⟨hne, hne'⟩, hj'⟩ <;>
        (try exact h.joined j th' hj' hjn) <;>
        (try have := h.joined j _ (by assumption)) <;>
        simp_all
    · intro d k hd j th' hjk hj
      have hb := h.before d k
      have hbc := h.before c
      split at hs <;> (try split at hs) <;> (try split at hs) <;> (try split at hs) <;> simp at hs <;> subst hs <;>
        simp only [Pool.cgoto, Pool.notify] at hj hd ⊢ <;>
        rcases before_lookup hd with ⟨rfl, hk⟩ | hd' <;>
        (try (rcases set_lookup hj with ⟨rfl, rfl, _⟩ | ⟨⟨hne, hne'⟩, hj'⟩)) <;>
        (try exact hb hd' j th' hjk hj) <;>
        (try exact hb hd' j th' hjk hj') <;>
        (try have h1 := hb hd' j _ hjk (by assumption)) <;>
        (try have h2 := hbc _ (Or.inl hpc0) j th' (by omega) hj') <;>
        (try have h3 := hbc _ (Or.inr hpc0) j th' (by omega) hj') <;>
        (try have h4 := hbc _ (Or.inl hpc0) j th' (by omega) hj) <;>
        (try have h5 := h.joined j _ (by assumption)) <;>
        (try simp_all) <;> (try omega) <;>
        (try exact hbc j th' (by omega) (by assumption)) <;>
        (try (subst hk; rcases Nat.lt_or_eq_of_le (Nat.lt_succ_iff.mp hjk) with hlt | rfl <;>
          first | exact hbc j th' hlt hj | simp_all))

theorem JoinInv.join_callStep {s s' : Pool} {c : Nat} {op : Call} (h : JoinInv s)
    (hs : callStep c op s = some s') : JoinInv s' := by
  unfold TP.callStep at hs
  split at hs
  · cases op <;> simp at hs <;> subst hs <;> refine ⟨h.joined, ?_⟩ <;>
      intro d k hd j th' hjk hj <;>
      simp only [Pool.cgoto] at hd hj <;>
      rcases before_lookup hd with ⟨rfl, hk⟩ | hd' <;>
      (try exact h.before d k hd' j th' hjk hj) <;>
      simp at hk
  · simp at hs

theorem JoinInv.join_step {s s' : Pool} {a : Action} (h : JoinInv s)
    (hs : step a s = some s') : JoinInv s' := by
  cases a with
  | worker i => exact h.join_workerStep hs
  | caller c => exact h.join_callerStep hs
  | call c op => exact h.join_callStep hs

theorem Inv.preserved {n : Nat} {s s' : Pool} {a : Action} (hn : n < SIZE_MOD) (h : Inv n s)
    (hs : step a s = some s') : Inv n s' where
  mutex := h.mutex.mutex_step hs
  loc := h.loc.local_step h.mutex hs
  busy := h.busy.busy_step hn hs
  fifo := h.fifo.fifo_step hs
  term := h.term.term_step h.loc hs
  ids := h.ids.ids_step hs
  res := h.res.result_step h.fifo h.ids hs
  join := h.join.join_step hs
  note := h.note.notify_step h.mutex hs

theorem spawnThreads_eq (n : Nat) (ths : List Thread) :
    spawnThreads n ths =
      ths ++ List.replicate n { pc := .acquireTop, joinable := true, joins := 0 } := by
  induction n generalizing ths with
  | zero => simp [spawnThreads]
  | succ n ih => simp [spawnThreads, ih, List.replicate_succ]

theorem boot_eq {n k : Nat} {s0 : Pool} (h : boot n k = some s0) :
    0 < n ∧ s0 =
      { m_Threads := List.replicate n { pc := .acquireTop, joinable := true, joins := 0 }
        m_Tasks := []
        m_QueueMutex := none
        m_iBusyThreads := 0
        m_bStop := false
        callers := List.replicate k (.idle none)
        futures := []
        accepted := []
        dequeued := []
        notified := [] } := by
  unfold boot CPool at h
  by_cases hn : n = 0
  · simp [hn] at h
  · simp [hn, spawnThreads_eq] at h
    exact ⟨Nat.pos_of_ne_zero hn, h.symm⟩

theorem Inv.of_boot {n k : Nat} {s0 : Pool} (h : boot n k = some s0) : Inv n s0 := by
  obtain ⟨_, rfl⟩ := boot_eq h
  have hw : ∀ (i : Nat) (th : Thread),
      (List.replicate n ({ pc := .acquireTop, joinable := true, joins := 0 } : Thread))[i]? = some th →
      th = { pc := .acquireTop, joinable := true, joins := 0 } := by
    intro i th hi
    rw [List.getElem?_replicate] at hi
    split at hi <;> simp at hi
    exact hi.symm
  have hc : ∀ (c : Nat) (pc : CallerPc),
      (List.replicate k (CallerPc.idle none))[c]? = some pc → pc = .idle none := by
    intro c pc hi
    rw [List.getElem?_replicate] at hi
    split at hi <;> simp at hi
    exact hi.symm
  refine ⟨⟨?_, ?_⟩, ⟨?_, ?_, ?_, ?_, ?_⟩, ⟨?_, ?_⟩, ?_, ?_, ⟨?_, ?_, ?_, ?_⟩, ⟨?_, ?_⟩, ⟨?_, ?_⟩, ?_⟩
  · intro i th hi; simp [hw i th hi]
  · intro c pc hi; simp [hc c pc hi]
  · intro i th hi hpc; simp [hw i th hi] at hpc
  · intro i th hi hpc; simp [hw i th hi] at hpc
  · intro i th hi hpc; simp [hw i th hi] at hpc
  · intro c t hi; have := hc c _ hi; simp at this
  · intro c hi; have := hc c _ hi; simp at this
  · simp
  · simp only [Pool.executingCount]
    rw [List.countP_eq_zero.mpr]
    intro th hth
    obtain ⟨i, hi⟩ := List.mem_iff_getElem?.mp hth
    simp [hw i th hi]
  · simp [FifoInv]
  · intro i th hi hpc; simp [hw i th hi] at hpc
  · simp
  · simp
  · intro c pc t hi hp; simp [hc c pc hi] at hp
  · intro c d pc pd t u hi _ hp; simp [hc c pc hi] at hp
  · intro i th t hi hpc; simp [hw i th hi] at hpc
  · intro w t hw'; simp at hw'
  · intro i th hi hj; simp [hw i th hi] at hj
  · intro c i hi; rcases hi with hi | hi <;> have := hc c _ hi <;> simp at this
  · intro x hx; simp at hx

theorem Reach.inv_of {n : Nat} {s0 s : Pool} (hn : n < SIZE_MOD) (h0 : Inv n s0)
    (h : Reach s0 s) : Inv n s := by
  induction h with
  | init => exact h0
  | next a _ hs ih => exact ih.preserved hn hs

theorem Reachable.inv {n k : Nat} {s : Pool} (h : Reachable n k s) : Inv n s := by
  obtain ⟨hn, s0, h0, hr⟩ := h
  exact hr.inv_of hn (Inv.of_boot h0)

theorem Reachable.next {n k : Nat} {s s' : Pool} (a : Action) (h : Reachable n k s)
    (hs : step a s = some s') : Reachable n k s' := by
  obtain ⟨hn, s0, h0, hr⟩ := h
  exact ⟨hn, s0, h0, hr.next a hs⟩

theorem Reach.of_run {s0 s s' : Pool} (as : List Action) (h : Reach s0 s)
    (hs : run as s = some s') : Reach s0 s' := by
  induction as generalizing s with
  | nil => simp [TP.run] at hs; exact hs ▸ h
  | cons a as ih =>
    simp only [TP.run] at hs
    cases hst : step a s with
    | none => simp [hst] at hs
    | some s1 =>
      rw [hst] at hs
      exact ih (h.next a hst) hs

theorem Reachable.after_run {n k : Nat} {s s' : Pool} (as : List Action) (h : Reachable n k s)
    (hs : run as s = some s') : Reachable n k s' := by
  obtain ⟨hn, s0, h0, hr⟩ := h
  exact ⟨hn, s0, h0, hr.of_run as hs⟩

theorem Reachable.at_boot {n k : Nat} {s0 : Pool} (hn : n < SIZE_MOD) (h : boot n k = some s0) :
    Reachable n k s0 :=
  ⟨hn, s0, h, Reach.init⟩

theorem Reachable.of_runFrom {n k : Nat} {as : List Action} {s : Pool} (hn : n < SIZE_MOD)
    (h : runFrom n k as = some s) : Reachable n k s := by
  unfold runFrom at h
  cases hb : TP.boot n k with
  | none => simp [hb] at h
  | some s0 =>
    rw [hb] at h
    exact (Reachable.at_boot hn hb).after_run as h

theorem Reachable.pos {n k : Nat} {s : Pool} (h : Reachable n k s) : 0 < n := by
  obtain ⟨_, s0, h0, _⟩ := h
  exact (boot_eq h0).1

theorem Reach.trans {s0 s s' : Pool} (h : Reach s0 s) (h' : Reach s s') : Reach s0 s' := by
  induction h' with
  | init => exact h
  | next a _ hs ih => exact ih.next a hs

theorem Reachable.reach {n k : Nat} {s s' : Pool} (h : Reachable n k s) (h' : Reach s s') :
    Reachable n k s' := by
  obtain ⟨hn, s0, h0, hr⟩ := h
  exact ⟨hn, s0, h0, hr.trans h'⟩

theorem executingCount_le {n : Nat} {s : Pool} (h : BusyInv n s) : s.executingCount ≤ n := by
  have : s.m_Threads.countP (fun th : Thread => th.pc.executing) ≤ s.m_Threads.length :=
    List.countP_le_length _
  rw [h.len] at this
  exact this

/-- Two entries of the dequeue log for the same shared state are the same entry. -/
theorem dequeued_entry_inj {s : Pool} (hf : FifoInv s) (hid : IdInv s) {w w' : Nat} {t t' : Task}
    (h1 : (w, t) ∈ s.dequeued) (h2 : (w', t') ∈ s.dequeued) (h : t.id = t'.id) :
    w = w' ∧ t = t' := by
  have hn := hid.nodup
  rw [← hf, List.map_append, List.nodup_append, List.map_map] at hn
  have := List.inj_on_of_nodup_map hn.1 h1 h2 h
  exact ⟨congrArg Prod.fst this, congrArg Prod.snd this⟩

/-! ## Construction -/

/-- C7: constructing with `iNumThreads == 0` throws `std::invalid_argument` and
yields no pool (so no worker is spawned); for every `iNumThreads > 0` the
constructor succeeds with exactly `iNumThreads` worker threads, each started at
the top of `WorkLoop`, an empty queue, busy counter 0 and `m_bStop == false`. -/
theorem C7_construct (iNumThreads : Nat) :
    (iNumThreads = 0 →
      CPool iNumThreads = .error (.invalid_argument "Number of threads cannot be zero")) ∧
    (0 < iNumThreads →
      ∃ p, CPool iNumThreads = .ok p ∧ p.m_Threads.length = iNumThreads ∧
        (∀ th ∈ p.m_Threads, th.pc = .acquireTop ∧ th.joinable = true ∧ th.joins = 0) ∧
        p.m_Tasks = [] ∧ p.m_iBusyThreads = 0 ∧ p.m_bStop = false ∧
        p.m_QueueMutex = none) := by
  constructor
  · intro h
    simp [CPool, h]
  · intro h
    have hne : iNumThreads ≠ 0 := Nat.pos_iff_ne_zero.mp h
    simp only [CPool, hne, if_false]
    refine ⟨_, rfl, ?_, ?_, rfl, rfl, rfl, rfl⟩
    · simp [spawnThreads_eq]
    · intro th hth
      simp only [spawnThreads_eq, List.nil_append] at hth
      rw [List.eq_of_mem_replicate hth]
      exact ⟨rfl, rfl, rfl⟩

theorem C7_construct_witness :
    CPool 0 = .error (.invalid_argument "Number of threads cannot be zero") ∧
    (0 < 3 ∧ ∃ p, CPool 3 = .ok p ∧ p.m_Threads.length = 3 ∧
        (∀ th ∈ p.m_Threads, th.pc = .acquireTop ∧ th.joinable = true ∧ th.joins = 0) ∧
        p.m_Tasks = [] ∧ p.m_iBusyThreads = 0 ∧ p.m_bStop = false ∧
        p.m_QueueMutex = none) :=
  ⟨(C7_construct 0).1 rfl, by decide, (C7_construct 3).2 (by decide)⟩

/-! ## The busy counter -/

/-- C5: in every reachable state of a pool of `n` workers the busy counter
equals the number of workers in the Executing part of the loop and is at most
`n`; the `size_t` decrement of line 109 is taken only with a positive counter
(it lowers it by one, no wrap-around) and the increment of line 101 raises it by
one without exceeding `n`. -/
theorem C5_busy_bounds {n k : Nat} {s : Pool} (hr : Reachable n k s) :
    s.m_iBusyThreads = s.executingCount ∧ s.m_iBusyThreads ≤ n ∧ s.m_Threads.length = n ∧
    ∀ (i : Nat) (th : Thread) (s' : Pool), s.m_Threads[i]? = some th →
      step (.worker i) s = some s' →
      (th.pc = .decBusy → 0 < s.m_iBusyThreads ∧ s'.m_iBusyThreads + 1 = s.m_iBusyThreads) ∧
      (∀ t, th.pc = .incBusy t →
        s'.m_iBusyThreads = s.m_iBusyThreads + 1 ∧ s'.m_iBusyThreads ≤ n) := by
  have hb := hr.inv.busy
  refine ⟨hb.busy, hb.busy ▸ executingCount_le hb, hb.len, ?_⟩
  intro i th s' hth hs
  have hb' := (hr.next _ hs).inv.busy
  have hle' := executingCount_le hb'
  obtain ⟨hge, hrw⟩ := countP_set_lookup (fun th : Thread => th.pc.executing) hth
  have hbs := hb.busy
  have hbs' := hb'.busy
  unfold Pool.executingCount at hbs hbs' hle'
  constructor
  · intro hpc
    simp [TP.step, TP.workerStep, hth, hpc] at hs
    subst hs
    simp only [Pool.wgoto, hrw] at hbs' hle' ⊢
    generalize List.countP (fun th : Thread => th.pc.executing) s.m_Threads = cnt at hbs hbs' hle' hge
    simp [hpc] at hge hbs'
    omega
  · intro t hpc
    simp [TP.step, TP.workerStep, hth, hpc] at hs
    subst hs
    simp only [Pool.wgoto, hrw] at hbs' hle' ⊢
    generalize List.countP (fun th : Thread => th.pc.executing) s.m_Threads = cnt at hbs hbs' hle' hge
    simp [hpc] at hge hbs' hle'
    omega

theorem C5_busy_bounds_witness :
    ∃ s s', runFrom 1 1 toIncBusy = some s ∧ step (.worker 0) s = some s' ∧
      s.m_iBusyThreads = 0 ∧ s'.m_iBusyThreads = 1 ∧ s'.m_iBusyThreads ≤ 1 := by
  refine ⟨_, _, rfl, rfl, rfl, ?_⟩
  have h := (C5_busy_bounds (Reachable.of_runFrom (by decide) (rfl : runFrom 1 1 toIncBusy = some _))).2.2.2
    0 _ _ rfl rfl
  exact ⟨(h.2 _ rfl).1, (h.2 _ rfl).2⟩

/-! ## FIFO order -/

/-- C2: in every reachable state (any interleaving of callers and workers) the
tasks dequeued so far, in dequeue order, followed by the queue from head to
tail, are exactly the accepted submissions in submission order; so tasks
submitted as `[A, B, C]` and all dequeued were dequeued as `A, B, C`; and each
accepted task owns its own shared state and is claimed by exactly one worker:
two entries of the dequeue log for the same task are the same worker's. -/
theorem C2_fifo {n k : Nat} {s : Pool} (hr : Reachable n k s) :
    s.dequeued.map Prod.snd ++ s.m_Tasks = s.accepted ∧
    (∀ A B C : Task, s.accepted = [A, B, C] → s.m_Tasks = [] →
      s.dequeued.map Prod.snd = [A, B, C]) ∧
    (s.accepted.map Task.id).Nodup ∧
    (s.dequeued.map (fun e => e.2.id)).Nodup ∧
    (∀ (w w' : Nat) (t t' : Task), (w, t) ∈ s.dequeued → (w', t') ∈ s.dequeued →
      t.id = t'.id → w = w' ∧ t = t') := by
  have hf : s.dequeued.map Prod.snd ++ s.m_Tasks = s.accepted := hr.inv.fifo
  have hid := hr.inv.ids
  refine ⟨hf, ?_, hid.nodup, ?_, fun w w' t t' h1 h2 h => dequeued_entry_inj hr.inv.fifo hid h1 h2 h⟩
  · intro A B C hacc hq
    rw [hq, List.append_nil] at hf
    rw [hf, hacc]
  · have hn := hid.nodup
    rw [← hf, List.map_append, List.nodup_append, List.map_map] at hn
    exact hn.1

theorem C2_fifo_witness :
    ∃ s1 s2, runFrom 2 1 fifoTwoTaken = some s1 ∧ run fifoThirdTaken s1 = some s2 ∧
      s1.accepted = [{ id := 0, body := .value 1 }, { id := 1, body := .value 2 },
                     { id := 2, body := .value 3 }] ∧
      s1.dequeued = [(0, { id := 0, body := .value 1 }), (1, { id := 1, body := .value 2 })] ∧
      s1.m_Tasks = [{ id := 2, body := .value 3 }] ∧
      s1.dequeued.map Prod.snd ++ s1.m_Tasks = s1.accepted ∧
      s2.m_Tasks = [] ∧
      s2.dequeued.map Prod.snd =
        [{ id := 0, body := .value 1 }, { id := 1, body := .value 2 },
         { id := 2, body := .value 3 }] ∧
      (∀ w, (w, ({ id := 1, body := .value 2 } : Task)) ∈ s2.dequeued → w = 1) := by
  have h1 := C2_fifo (Reachable.of_runFrom (by decide)
    (rfl : runFrom 2 1 fifoTwoTaken = some _))
  have h2 := C2_fifo (Reachable.of_runFrom (by decide)
    (rfl : runFrom 2 1 (fifoTwoTaken ++ fifoThirdTaken) = some _))
  refine ⟨_, _, rfl, rfl, rfl, rfl, rfl, h1.1, rfl, h2.2.1 _ _ _ rfl rfl, ?_⟩
  intro w hw
  exact (h2.2.2.2.2 w 1 _ _ hw (by decide) rfl).1

/-! ## Notifications and the mutex -/

/-- C10 (as stated) fails: in a 1-worker pool a caller of `Enqueue` reaches line
51 after the lock scope of lines 42-49 has ended; there the mutex is free, and
the `notify_one` step is taken without the notifying thread holding it. -/
theorem C10_counterexample :
    ∃ s s', runFrom 1 1 toEnqNotify = some s ∧ Reachable 1 1 s ∧
      s.callers[0]? = some (.enqNotify { id := 0, body := .value 7 }) ∧
      s.m_QueueMutex = none ∧
      step (.caller 0) s = some s' ∧
      s'.notified = [{ sender := .caller 0, all := false, holder := none }] :=
  ⟨_, _, rfl, Reachable.of_runFrom (by decide) (rfl : runFrom 1 1 toEnqNotify = some _),
    rfl, rfl, rfl, rfl⟩

/-- C10 (amended): every change to the queue, the stop flag or the busy counter
is made by the thread that holds the mutex; the `notify_all` of `WorkLoop`
(line 112) is issued while the worker holds the mutex; the `notify_one` of
`Enqueue` (line 51) and the `notify_all` of `Stop` (line 72) are issued after
the caller has released the mutex. -/
theorem C10_notify_amended {n k : Nat} {s : Pool} (hr : Reachable n k s) :
    (∀ (a : Action) (s' : Pool), step a s = some s' →
      (s'.m_Tasks ≠ s.m_Tasks ∨ s'.m_bStop ≠ s.m_bStop ∨
        s'.m_iBusyThreads ≠ s.m_iBusyThreads) →
      s.m_QueueMutex = some a.actor) ∧
    (∀ (i : Nat) (th : Thread), s.m_Threads[i]? = some th → th.pc = .notifyIdle →
      s.m_QueueMutex = some (.worker i)) ∧
    (∀ (c : Nat) (t : Task), s.callers[c]? = some (.enqNotify t) →
      s.m_QueueMutex ≠ some (.caller c)) ∧
    (∀ (c : Nat), s.callers[c]? = some .stopNotify → s.m_QueueMutex ≠ some (.caller c)) ∧
    (∀ x ∈ s.notified,
      (∀ i, x.sender = .worker i → x.holder = some (.worker i) ∧ x.all = true) ∧
      (∀ c, x.sender = .caller c → x.holder ≠ some (.caller c))) := by
  have hi := hr.inv
  refine ⟨fun a s' hs hw => guarded_write hi.mutex hs hw, ?_, ?_, ?_, hi.note⟩
  · intro i th hth hpc
    have := hi.mutex.w i th hth
    simpa [hpc] using this
  · intro c t hc hm
    have := hi.mutex.c c _ hc
    simp [hm] at this
  · intro c hc hm
    have := hi.mutex.c c _ hc
    simp [hm] at this

theorem C10_notify_amended_witness :
    ∃ s, runFrom 1 1 toNotifyIdle = some s ∧
      s.m_Threads[0]? = some { pc := .notifyIdle, joinable := true, joins := 0 } ∧
      s.m_QueueMutex = some (.worker 0) :=
  ⟨_, rfl, rfl, (C10_notify_amended (Reachable.of_runFrom (by decide)
    (rfl : runFrom 1 1 toNotifyIdle = some _))).2.1 0 _ rfl rfl⟩

/-- With an empty queue and no worker holding a task, every accepted task has
been dequeued and its outcome is in its shared state. -/
theorem all_done {n : Nat} {s : Pool} (hi : Inv n s) (hq : s.m_Tasks = [])
    (hno : ∀ (w : Nat) (th : Thread) (t : Task), s.m_Threads[w]? = some th →
      th.pc.task = some t → False) :
    ∀ t ∈ s.accepted, (∃ w, (w, t) ∈ s.dequeued) ∧ s.futures[t.id]? = some (some t.body) := by
  intro t ht
  have hf : s.dequeued.map Prod.snd ++ s.m_Tasks = s.accepted := hi.fifo
  rw [hq, List.append_nil] at hf
  rw [← hf] at ht
  obtain ⟨⟨w, t'⟩, hmem, rfl⟩ := List.mem_map.mp ht
  refine ⟨⟨w, hmem⟩, ?_⟩
  rcases hi.res.done w t' hmem with hl | ⟨th, hw, hpc⟩
  · exact hl
  · exact (hno w th t' hw hpc).elim

theorem busy_inc {n : Nat} {s : Pool} (hn : n < SIZE_MOD) (hb : BusyInv n s) {i : Nat}
    {th : Thread} (hth : s.m_Threads[i]? = some th) (hpc : th.pc.executing = false) :
    (s.m_iBusyThreads + 1) % SIZE_MOD = s.m_iBusyThreads + 1 ∧ s.m_iBusyThreads + 1 ≤ n := by
  obtain ⟨_, hrw⟩ := countP_set_lookup (fun th : Thread => th.pc.executing) hth
  have hle : (s.m_Threads.set i { th with pc := .acquireBottom }).countP
      (fun th : Thread => th.pc.executing)
      ≤ (s.m_Threads.set i { th with pc := .acquireBottom }).length :=
    List.countP_le_length _
  rw [hrw, List.length_set, hb.len] at hle
  have hbs := hb.busy
  unfold Pool.executingCount at hbs
  generalize List.countP (fun th : Thread => th.pc.executing) s.m_Threads = cnt at hbs hle
  have h1 : WorkerPc.acquireBottom.executing = true := rfl
  simp only [hpc, h1, if_true, Bool.false_eq_true, if_false] at hle
  unfold SIZE_MOD at hn ⊢
  omega

/-- A worker changes its program counter only by its own step. -/
theorem pc_frame {s s' : Pool} {a : Action} (hs : step a s = some s') {i : Nat} {th' : Thread}
    (hth' : s'.m_Threads[i]? = some th') :
    a = .worker i ∨ ∃ th, s.m_Threads[i]? = some th ∧ th.pc = th'.pc := by
  cases a with
  | worker j =>
    by_cases hji : j = i
    · exact Or.inl (by rw [hji])
    · right
      simp only [TP.step, TP.workerStep] at hs
      split at hs
      · simp at hs
      · split at hs <;> (try split at hs) <;> simp at hs <;> subst hs <;>
          simp only [Pool.wgoto, Pool.notify, List.getElem?_set_ne hji] at hth' <;>
          exact ⟨th', hth', rfl⟩
  | caller c =>
    right
    simp only [TP.step, TP.callerStep] at hs
    split at hs
    · simp at hs
    · split at hs <;> (try split at hs) <;> (try split at hs) <;> (try split at hs) <;> simp at hs <;> subst hs <;>
        simp only [Pool.cgoto, Pool.notify] at hth' <;>
        (try exact ⟨th', hth', rfl⟩) <;>
        rcases set_lookup hth' with ⟨rfl, rfl, _⟩ | ⟨_, h'⟩ <;>
        (try exact ⟨th', h', rfl⟩) <;>
        exact Exists.intro _ (And.intro (by assumption) (by rfl))
  | call c op =>
    right
    simp only [TP.step, TP.callStep] at hs
    split at hs
    · cases op <;> simp at hs <;> subst hs <;> exact ⟨th', hth', rfl⟩
    · simp at hs

/-! ## The worker loop -/

/-- C8: a worker enters Terminated only by its own step from the test of line 95
taken with `m_bStop` set and the queue empty, and that test terminates the
worker exactly then; in every other state in which the test is made the queue
is non-empty and the worker goes on to dequeue the head task, count itself busy
and reach the task's invocation; the wait predicate lets it through exactly
when the queue is non-empty or `m_bStop` is set; hence in every reachable state
with a non-empty queue all `n` workers are alive. -/
theorem C8_worker_exit {n k : Nat} {s : Pool} (hr : Reachable n k s) :
    (∀ (i : Nat) (th : Thread), s.m_Threads[i]? = some th → th.pc = .waitPred →
      ∃ s', step (.worker i) s = some s' ∧
        ((s.m_Tasks ≠ [] ∨ s.m_bStop = true) →
          s'.m_Threads[i]? = some { th with pc := .checkStop }) ∧
        (¬(s.m_Tasks ≠ [] ∨ s.m_bStop = true) →
          s'.m_Threads[i]? = some { th with pc := .blocked })) ∧
    (∀ (i : Nat) (th : Thread), s.m_Threads[i]? = some th → th.pc = .checkStop →
      ∃ s', step (.worker i) s = some s' ∧
        ((s.m_bStop = true ∧ s.m_Tasks = []) →
          s'.m_Threads[i]? = some { th with pc := .terminated }) ∧
        (¬(s.m_bStop = true ∧ s.m_Tasks = []) →
          s.m_Tasks ≠ [] ∧ s'.m_Threads[i]? = some { th with pc := .takeTask })) ∧
    (∀ (a : Action) (s' : Pool) (i : Nat) (th th' : Thread), s.m_Threads[i]? = some th →
      step a s = some s' → s'.m_Threads[i]? = some th' → th'.pc = .terminated →
      th.pc = .terminated ∨
        (a = .worker i ∧ th.pc = .checkStop ∧ s.m_bStop = true ∧ s.m_Tasks = [])) ∧
    (∀ (i : Nat) (th : Thread), s.m_Threads[i]? = some th → th.pc = .takeTask →
      ∃ t rest s', s.m_Tasks = t :: rest ∧
        run [.worker i, .worker i, .worker i] s = some s' ∧
        s'.m_Threads[i]? = some { th with pc := .runTask t } ∧ s'.m_Tasks = rest ∧
        s'.dequeued = s.dequeued ++ [(i, t)] ∧
        s'.m_iBusyThreads = s.m_iBusyThreads + 1) ∧
    (s.m_Tasks ≠ [] →
      s.m_Threads.length = n ∧ ∀ th ∈ s.m_Threads, th.pc ≠ .terminated) := by
  have hi := hr.inv
  refine ⟨?_, ?_, ?_, ?_, ?_⟩
  · intro i th hth hpc
    have hlt := (List.getElem?_eq_some.mp hth).1
    cases hst : step (.worker i) s with
    | none => simp [TP.step, TP.workerStep, hth, hpc] at hst; split at hst <;> simp at hst
    | some s' =>
      refine ⟨s', rfl, ?_, ?_⟩ <;> intro hc <;>
        simp only [TP.step, TP.workerStep, hth, hpc, hc, if_true, if_false] at hst <;>
        simp at hst <;> subst hst <;> simp [Pool.wgoto, hlt]
  · intro i th hth hpc
    have hlt := (List.getElem?_eq_some.mp hth).1
    cases hst : step (.worker i) s with
    | none => simp [TP.step, TP.workerStep, hth, hpc] at hst; split at hst <;> simp at hst
    | some s' =>
      refine ⟨s', rfl, ?_, ?_⟩ <;> intro hc <;>
        simp only [TP.step, TP.workerStep, hth, hpc, hc, if_true, if_false] at hst <;>
        simp at hst <;> subst hst
      · simp [Pool.wgoto, hlt]
      · refine ⟨?_, by simp [Pool.wgoto, hlt]⟩
        rcases hi.loc.checkStop i th hth hpc with h | h
        · exact h
        · intro hq
          exact hc ⟨h, hq⟩
  · intro a s' i th th' hth hs hth' hpc'
    rcases pc_frame hs hth' with rfl | ⟨th0, h0, hpc0⟩
    · have hlt := (List.getElem?_eq_some.mp hth).1
      simp only [TP.step, TP.workerStep, hth] at hs
      split at hs <;> (try split at hs) <;> simp at hs <;> subst hs <;>
        simp [Pool.wgoto, Pool.notify, hlt] at hth' <;> subst hth' <;> simp at hpc' <;>
        simp_all
    · rw [hth] at h0
      cases h0
      exact Or.inl (hpc0.trans hpc')
  · intro i th hth hpc
    have hlt := (List.getElem?_eq_some.mp hth).1
    have hne := hi.loc.takeTask i th hth hpc
    obtain ⟨t, rest, hq⟩ := List.exists_cons_of_ne_nil hne
    have hs1 : step (.worker i) s = some
        ({ s with m_Tasks := rest, dequeued := s.dequeued ++ [(i, t)] }.wgoto i th (.incBusy t)) := by
      simp [TP.step, TP.workerStep, hth, hpc, hq]
    have hb1 := (hi.preserved hr.1 hs1).busy
    have hth1 : ({ s with m_Tasks := rest, dequeued := s.dequeued ++ [(i, t)] }.wgoto i th
        (.incBusy t)).m_Threads[i]? = some { th with pc := .incBusy t } := by
      simp [Pool.wgoto, hlt]
    have hinc := (busy_inc hr.1 hb1 hth1 rfl).1
    simp only [Pool.wgoto] at hinc
    cases hst : run [.worker i, .worker i, .worker i] s with
    | none =>
      simp [TP.run, TP.step, TP.workerStep, hth, hpc, hq, Pool.wgoto, hlt] at hst
    | some s' =>
      refine ⟨t, rest, s', hq, rfl, ?_⟩
      simp [TP.run, TP.step, TP.workerStep, hth, hpc, hq, Pool.wgoto, hlt, hinc] at hst
      subst hst
      simp [hlt]
  · intro hq
    refine ⟨hi.busy.len, ?_⟩
    intro th hth hpc
    obtain ⟨i, hth'⟩ := List.mem_iff_getElem?.mp hth
    exact hq (hi.term i th hth' hpc).2

theorem C8_worker_exit_witness :
    ∃ s s', runFrom 1 2 toCheckStop = some s ∧ s.m_bStop = true ∧
      s.m_Tasks = [{ id := 0, body := .value 7 }] ∧
      step (.worker 0) s = some s' ∧
      s'.m_Threads[0]? = some { pc := .takeTask, joinable := true, joins := 0 } := by
  obtain ⟨s', hs, _, h2⟩ := (C8_worker_exit (Reachable.of_runFrom (by decide)
    (rfl : runFrom 1 2 toCheckStop = some _))).2.1 0 _ rfl rfl
  exact ⟨_, s', rfl, rfl, rfl, hs, (h2 (by decide)).2⟩

/-- Accepted submissions are never withdrawn. -/
theorem accepted_step {s s' : Pool} {a : Action} (hs : step a s = some s') :
    ∀ t ∈ s.accepted, t ∈ s'.accepted := by
  intro t ht
  cases a with
  | worker i =>
    simp only [TP.step, TP.workerStep] at hs
    split at hs
    · simp at hs
    · split at hs <;> (try split at hs) <;> simp at hs <;> subst hs <;> exact ht
  | caller c =>
    simp only [TP.step, TP.callerStep] at hs
    split at hs
    · simp at hs
    · split at hs <;> (try split at hs) <;> (try split at hs) <;> (try split at hs) <;> simp at hs <;> subst hs <;>
        first
          | exact ht
          | exact List.mem_append_left _ ht
  | call c op =>
    simp only [TP.step, TP.callStep] at hs
    split at hs
    · cases op <;> simp at hs <;> subst hs <;> exact ht
    · simp at hs

theorem accepted_reach {s s' : Pool} (h : Reach s s') : ∀ t ∈ s.accepted, t ∈ s'.accepted := by
  induction h with
  | init => exact fun t ht => ht
  | next a _ hs ih => exact fun t ht => accepted_step hs t (ih t ht)

/-- C9 (as stated) fails: in a 1-worker pool a task is in the queue at the
moment `Stop()` is entered; after `m_bStop` has been set the worker still
dequeues that task and invokes it, and the task's shared state receives its
outcome. -/
theorem C9_counterexample :
    ∃ s s1 s', runFrom 1 2 toQueued = some s ∧
      s.m_Tasks = [{ id := 0, body := .value 7 }] ∧
      step (.call 1 .Stop) s = some s1 ∧
      run stopThenServe s1 = some s' ∧
      s'.m_bStop = true ∧
      s'.dequeued = [(0, { id := 0, body := .value 7 })] ∧
      s'.futures[0]? = some (some (.value 7)) :=
  ⟨_, _, _, rfl, rfl, rfl, rfl, rfl, rfl, rfl⟩

/-- C9 (amended): a task that is in the queue when `Stop()` is called is not
abandoned: the workers keep dequeuing while the queue is non-empty, so in every
later state in which a call of `Stop` has finished its join loop and is about
to return, all workers have terminated, the queue is empty, and that task has
been dequeued and its outcome is in its shared state. -/
theorem C9_stop_drains {n k : Nat} {s s' : Pool} (hr : Reachable n k s) (t : Task)
    (ht : t ∈ s.m_Tasks) (h : Reach s s') (c i : Nat)
    (hc : s'.callers[c]? = some (.stopJoinable i)) (hend : s'.m_Threads[i]? = none) :
    (∀ th ∈ s'.m_Threads, th.pc = .terminated) ∧ s'.m_Tasks = [] ∧
    (∃ w, (w, t) ∈ s'.dequeued) ∧ s'.futures[t.id]? = some (some t.body) ∧
    ∃ s'', step (.caller c) s' = some s'' ∧ s''.callers[c]? = some (.idle (some .unit)) := by
  have hi' := (hr.reach h).inv
  have hlen : s'.m_Threads.length ≤ i := by
    by_contra hlt
    have := List.getElem?_eq_getElem (Nat.lt_of_not_le hlt)
    rw [hend] at this
    cases this
  have hall : ∀ (j : Nat) (th : Thread), s'.m_Threads[j]? = some th → th.pc = .terminated := by
    intro j th hj
    have hjl := (List.getElem?_eq_some.mp hj).1
    exact (hi'.join.before c i (Or.inl hc) j th (by omega) hj).1
  have hpos : 0 < s'.m_Threads.length := by
    rw [hi'.busy.len]
    exact hr.pos
  have hq : s'.m_Tasks = [] :=
    (hi'.term 0 _ (List.getElem?_eq_getElem hpos) (hall 0 _ (List.getElem?_eq_getElem hpos))).2
  have hacc : t ∈ s'.accepted := by
    apply accepted_reach h
    have hf : s.dequeued.map Prod.snd ++ s.m_Tasks = s.accepted := hr.inv.fifo
    rw [← hf]
    exact List.mem_append_right _ ht
  have hdone := all_done hi' hq (by
    intro w th u hw hpc
    rw [hall w th hw] at hpc
    simp at hpc) t hacc
  refine ⟨?_, hq, hdone.1, hdone.2, ?_⟩
  · intro th hth
    obtain ⟨j, hj⟩ := List.mem_iff_getElem?.mp hth
    exact hall j th hj
  · have hlt := (List.getElem?_eq_some.mp hc).1
    refine ⟨s'.cgoto c (.idle (some .unit)), by simp [TP.step, TP.callerStep, hc, hend], ?_⟩
    simp [Pool.cgoto, hlt]

theorem C9_stop_drains_witness :
    ∃ s s', runFrom 1 2 toQueued = some s ∧ run stopAndJoin s = some s' ∧
      s.m_Tasks = [{ id := 0, body := .value 7 }] ∧
      s'.callers[1]? = some (.stopJoinable 1) ∧
      s'.m_Tasks = [] ∧ s'.futures[0]? = some (some (.value 7)) := by
  have hr : Reachable 1 2 _ := Reachable.of_runFrom (by decide)
    (rfl : runFrom 1 2 toQueued = some _)
  have h := C9_stop_drains hr { id := 0, body := .value 7 } (List.mem_singleton.mpr rfl)
    (Reach.of_run stopAndJoin Reach.init rfl) 1 1 rfl rfl
  exact ⟨_, _, rfl, rfl, rfl, rfl, h.2.1, h.2.2.2.1⟩

end TP
